import Mathlib

/-!
Verification of the `wkg get` pipeline (crates/wkg/src/main.rs) and the
`PackageRef` parser (crates/wasm-pkg-loader/src/package.rs) of the
wasm-pkg-tools repository, as a shallow embedding in Lean 4.

The embedding models:
* `PackageRef` parsing and display (`package.rs`), with the `Label`
  validator modelled from the spec (its source, `crate::label`, is not
  part of the provided sources);
* semantic versions and the ordering used by `Iterator::max` during
  version resolution;
* the whole `GetCommand::run` pipeline as a function from an environment
  (registry answers, content stream, decoder oracle, initial file system)
  to a trace of file-system events plus a result, so that claims about
  atomicity, partial writes and temp-file cleanup can be stated as
  properties of every prefix of the trace.
-/

namespace WasmPkg

deriving instance DecidableEq for Except

/-! ## Labels (modelled from the spec) and `PackageRef` parsing -/

/-- Modelled from the spec: the character set of a `Label`
(`crate::label`, not under the provided sources): lowercase ASCII
letters, digits, hyphens. -/
def labelChar (c : Char) : Bool :=
  (decide ('a' ≤ c) && decide (c ≤ 'z')) ||
  (decide ('0' ≤ c) && decide (c ≤ '9')) ||
  (c = '-')

/-- No two consecutive hyphens occur in the character list. -/
def noConsecHyphen : List Char → Bool
  | [] => true
  | [_] => true
  | a :: b :: rest => !((a = '-') && (b = '-')) && noConsecHyphen (b :: rest)

/-- Modelled from the spec: `Label` validation (`crate::label`, not under
the provided sources): a non-empty kebab-case identifier made of
lowercase ASCII letters, digits and hyphens, with no leading, trailing
or consecutive hyphens. -/
def validLabel (l : List Char) : Bool :=
  (!l.isEmpty) && l.all labelChar &&
  (l.head? ≠ some '-') && (l.getLast? ≠ some '-') && noConsecHyphen l

/-- A package reference: validated namespace and name labels
(`PackageRef` in `package.rs`; the Rust fields are called `namespace`
and `name`, which are not available as Lean field names). -/
structure PackageRef where
  nspace : String
  pname : String
  deriving DecidableEq, Repr

/-- Errors of `PackageRef` parsing. The source wraps all parse failures
of a reference in `Error::InvalidPackageRef` or the label validator's
error; the spec groups both as `InvalidReference`. -/
inductive PkgErr where
  | invalidReference
  deriving DecidableEq, Repr

/-- `str::split_once`: split at the first occurrence of `c`, returning
the parts before and after it, or `none` when `c` does not occur. -/
def splitOnceChar (c : Char) : List Char → Option (List Char × List Char)
  | [] => none
  | a :: rest =>
    if a = c then some ([], rest)
    else (splitOnceChar c rest).map (fun p => (a :: p.1, p.2))

/-- `TryFrom<&str> for PackageRef`: split at the first `:`; fail when
there is none; validate both sides as labels. -/
def parsePackageRef (s : String) : Except PkgErr PackageRef :=
  match splitOnceChar ':' s.data with
  | none => .error .invalidReference
  | some (ns, nm) =>
    if validLabel ns then
      if validLabel nm then .ok ⟨String.mk ns, String.mk nm⟩
      else .error .invalidReference
    else .error .invalidReference

/-- `Display for PackageRef`: `{namespace}:{name}`. -/
def displayPackageRef (r : PackageRef) : String :=
  r.nspace ++ ":" ++ r.pname

theorem splitOnceChar_sound {c : Char} {l ns nm : List Char}
    (h : splitOnceChar c l = some (ns, nm)) :
    l = ns ++ c :: nm ∧ c ∉ ns := by
  induction l generalizing ns nm with
  | nil => simp [splitOnceChar] at h
  | cons a rest ih =>
    rw [splitOnceChar] at h
    by_cases ha : a = c
    · rw [if_pos ha] at h
      simp only [Option.some.injEq, Prod.mk.injEq] at h
      obtain ⟨h1, h2⟩ := h
      subst ha
      rw [← h1, ← h2]
      simp
    · rw [if_neg ha] at h
      cases hsc : splitOnceChar c rest with
      | none => rw [hsc] at h; simp at h
      | some p =>
        obtain ⟨x, y⟩ := p
        rw [hsc] at h
        simp only [Option.map_some', Option.some.injEq, Prod.mk.injEq] at h
        obtain ⟨h1, h2⟩ := h
        obtain ⟨hrest, hnx⟩ := ih hsc
        constructor
        · rw [← h1, ← h2, hrest]; rfl
        · rw [← h1]
          intro hmem
          rcases List.mem_cons.mp hmem with h0 | h0
          · exact ha h0.symm
          · exact hnx h0

theorem splitOnceChar_isSome {c : Char} {l : List Char} (h : c ∈ l) :
    (splitOnceChar c l).isSome = true := by
  induction l with
  | nil => simp at h
  | cons a rest ih =>
    rw [splitOnceChar]
    by_cases ha : a = c
    · simp [ha]
    · rw [if_neg ha]
      have hr : c ∈ rest := by
        rcases List.mem_cons.mp h with h0 | h0
        · exact absurd h0.symm ha
        · exact h0
      cases hsc : splitOnceChar c rest with
      | none => rw [hsc] at ih; simp at ih; exact absurd hr ih
      | some p => simp

theorem splitOnceChar_append {c : Char} {ns : List Char} (nm : List Char)
    (h : c ∉ ns) : splitOnceChar c (ns ++ c :: nm) = some (ns, nm) := by
  induction ns with
  | nil => simp [splitOnceChar]
  | cons a rest ih =>
    have ha : a ≠ c := fun hh => h (by simp [hh])
    have hrest : c ∉ rest := fun hh => h (by simp [hh])
    show splitOnceChar c (a :: (rest ++ c :: nm)) = _
    rw [splitOnceChar, if_neg ha, ih hrest]
    rfl

theorem validLabel_no_colon {l : List Char} (h : validLabel l = true) :
    ':' ∉ l := by
  intro hmem
  have hall : l.all labelChar = true := by
    simp only [validLabel, Bool.and_eq_true] at h
    exact h.1.1.1.2
  have := List.all_eq_true.mp hall ':' hmem
  simp [labelChar] at this

theorem parsePackageRef_isOk_iff (s : String) :
    (parsePackageRef s).isOk = true ↔
      ∃ ns nm, splitOnceChar ':' s.data = some (ns, nm) ∧
        validLabel ns = true ∧ validLabel nm = true := by
  unfold parsePackageRef
  cases hsp : splitOnceChar ':' s.data with
  | none => simp [Except.isOk, Except.toBool]
  | some p =>
    obtain ⟨ns, nm⟩ := p
    by_cases h1 : validLabel ns = true
    · by_cases h2 : validLabel nm = true
      · simp only [h1, h2, if_true]
        simp only [Except.isOk, Except.toBool, true_iff]
        exact ⟨ns, nm, rfl, h1, h2⟩
      · simp only [h1, if_true, if_neg h2]
        simp [Except.isOk, Except.toBool, h2]
    · simp only [if_neg h1]
      simp [Except.isOk, Except.toBool, h1]

theorem splitOnce_decomp_unique {ns nm x y : List Char}
    (hns : ':' ∉ ns) (hx : ':' ∉ x)
    (heq : ns ++ ':' :: nm = x ++ ':' :: y) : ns = x ∧ nm = y := by
  have h1 : splitOnceChar ':' (ns ++ ':' :: nm) = some (ns, nm) :=
    splitOnceChar_append nm hns
  have h2 : splitOnceChar ':' (x ++ ':' :: y) = some (x, y) :=
    splitOnceChar_append y hx
  rw [heq, h2] at h1
  simpa using h1.symm

/-- **C9.** For every string `s` that parses successfully to a
`PackageRef`, displaying that reference and re-parsing the displayed
string succeeds and yields the same `PackageRef`:
`parse (toString (parse s)) = parse s`. -/
theorem parse_display_roundtrip (s : String) (r : PackageRef)
    (h : parsePackageRef s = .ok r) :
    parsePackageRef (displayPackageRef r) = .ok r := by
  cases hsp : splitOnceChar ':' s.data with
  | none =>
    have hps : parsePackageRef s = .error .invalidReference := by
      unfold parsePackageRef; rw [hsp]
    rw [hps] at h
    exact absurd h (by simp)
  | some p =>
    obtain ⟨ns, nm⟩ := p
    have hps : parsePackageRef s =
        (if validLabel ns = true then
          (if validLabel nm = true then
            Except.ok ⟨String.mk ns, String.mk nm⟩
          else Except.error PkgErr.invalidReference)
        else Except.error PkgErr.invalidReference) := by
      unfold parsePackageRef; rw [hsp]
    rw [hps] at h
    by_cases h1 : validLabel ns = true
    · by_cases h2 : validLabel nm = true
      · rw [if_pos h1, if_pos h2] at h
        have hr : r = ⟨String.mk ns, String.mk nm⟩ := by
          cases h; rfl
        subst hr
        have hdata : (displayPackageRef ⟨String.mk ns, String.mk nm⟩).data
            = ns ++ ':' :: nm := by
          show ((String.mk ns ++ ":") ++ String.mk nm).data = _
          have hstep : ((String.mk ns ++ ":") ++ String.mk nm).data
              = (ns ++ [':']) ++ nm := rfl
          rw [hstep, List.append_assoc]
          rfl
        have hd2 : parsePackageRef (displayPackageRef ⟨String.mk ns, String.mk nm⟩) =
            (if validLabel ns = true then
              (if validLabel nm = true then
                Except.ok ⟨String.mk ns, String.mk nm⟩
              else Except.error PkgErr.invalidReference)
            else Except.error PkgErr.invalidReference) := by
          unfold parsePackageRef
          rw [hdata, splitOnceChar_append nm (validLabel_no_colon h1)]
        rw [hd2, if_pos h1, if_pos h2]
      · rw [if_pos h1, if_neg h2] at h
        exact absurd h (by simp)
    · rw [if_neg h1] at h
      exact absurd h (by simp)

/-- Witness for C9 at the concrete input `"foo:bar"`. -/
theorem parse_display_roundtrip_witness :
    parsePackageRef (displayPackageRef ⟨"foo", "bar"⟩) = .ok ⟨"foo", "bar"⟩ :=
  parse_display_roundtrip "foo:bar" ⟨"foo", "bar"⟩ rfl

/-- **C10.** For every input string, `PackageRef` parsing fails exactly
when the input does not consist of two `:`-separated parts with both
sides valid labels — equivalently, when the colon count is not exactly
one or a side of the (unique) separator fails label validation; in
particular every string containing no `:` is rejected. (The embedding
is a pure function, so parsing has no side effects by construction.) -/
theorem parse_invalidReference_iff (s : String) :
    ((parsePackageRef s).isOk = false ↔
      (s.data.count ':' ≠ 1 ∨
        ∃ ns nm, s.data = ns ++ ':' :: nm ∧
          (validLabel ns = false ∨ validLabel nm = false))) ∧
    (':' ∉ s.data → (parsePackageRef s).isOk = false) := by
  constructor
  · constructor
    · intro hfail
      cases hsp : splitOnceChar ':' s.data with
      | none =>
        left
        have hnotmem : ':' ∉ s.data := by
          intro hmem
          have := splitOnceChar_isSome hmem
          rw [hsp] at this
          simp at this
        rw [List.count_eq_zero.mpr hnotmem]
        simp
      | some p =>
        obtain ⟨ns, nm⟩ := p
        obtain ⟨hdec, hns⟩ := splitOnceChar_sound hsp
        right
        refine ⟨ns, nm, hdec, ?_⟩
        by_contra hboth
        push_neg at hboth
        obtain ⟨hb1, hb2⟩ := hboth
        have hv1 : validLabel ns = true := by
          cases hv : validLabel ns with
          | false => exact absurd hv hb1
          | true => rfl
        have hv2 : validLabel nm = true := by
          cases hv : validLabel nm with
          | false => exact absurd hv hb2
          | true => rfl
        have : (parsePackageRef s).isOk = true :=
          (parsePackageRef_isOk_iff s).mpr ⟨ns, nm, hsp, hv1, hv2⟩
        rw [this] at hfail
        exact absurd hfail (by simp)
    · intro hcond
      cases hok : (parsePackageRef s).isOk with
      | false => rfl
      | true =>
        obtain ⟨ns, nm, hsp, hv1, hv2⟩ := (parsePackageRef_isOk_iff s).mp hok
        obtain ⟨hdec, _⟩ := splitOnceChar_sound hsp
        have hcount : s.data.count ':' = 1 := by
          rw [hdec, List.count_append, List.count_cons]
          rw [List.count_eq_zero.mpr (validLabel_no_colon hv1),
            List.count_eq_zero.mpr (validLabel_no_colon hv2)]
          simp
        rcases hcond with hne | ⟨x, y, hxy, hside⟩
        · exact absurd hcount hne
        · have hxmem : ':' ∉ x := by
            intro hmem
            have h1c : 1 ≤ x.count ':' := List.one_le_count_iff.mpr hmem
            have hc2 := hcount
            rw [hxy, List.count_append, List.count_cons] at hc2
            simp only [beq_self_eq_true, if_true] at hc2
            omega
          obtain ⟨hx1, hx2⟩ := splitOnce_decomp_unique
            (validLabel_no_colon hv1) hxmem (hdec.symm.trans hxy)
          rcases hside with h0 | h0
          · rw [← hx1, hv1] at h0; exact absurd h0 (by simp)
          · rw [← hx2, hv2] at h0; exact absurd h0 (by simp)
  · intro hnomem
    cases hok : (parsePackageRef s).isOk with
    | false => rfl
    | true =>
      obtain ⟨ns, nm, hsp, _, _⟩ := (parsePackageRef_isOk_iff s).mp hok
      obtain ⟨hdec, _⟩ := splitOnceChar_sound hsp
      exact absurd (by rw [hdec]; simp : ':' ∈ s.data) hnomem

/-- Witness for C10 at the concrete input `"foobar"` (no colon). -/
theorem parse_invalidReference_witness :
    (parsePackageRef "foobar").isOk = false :=
  (parse_invalidReference_iff "foobar").2 (by decide)

/-! ## Semantic versions and the ordering used by `Iterator::max` -/

/-- A pre-release identifier: numeric or alphanumeric
(`semver::Prerelease` segments). -/
inductive PreIdent where
  | num (n : Nat)
  | alpha (s : String)
  deriving DecidableEq, Repr

/-- A semantic version `major.minor.patch[-pre]` (`semver::Version`;
build metadata plays no role in precedence). -/
structure SemVersion where
  major : Nat
  minor : Nat
  patch : Nat
  pre : List PreIdent
  deriving DecidableEq, Repr

/-- Lexicographic comparison of lists by an element comparison; a strict
prefix is smaller. -/
def cmpListBy {α : Type} (f : α → α → Ordering) : List α → List α → Ordering
  | [], [] => .eq
  | [], _ :: _ => .lt
  | _ :: _, [] => .gt
  | x :: xs, y :: ys => (f x y).then (cmpListBy f xs ys)

/-- ASCII/codepoint comparison of characters (Rust compares `str` bytes;
identifiers are ASCII, where byte order equals codepoint order). -/
def cmpChar (a b : Char) : Ordering := compare a.toNat b.toNat

/-- Lexicographic string comparison. -/
def cmpStr (a b : String) : Ordering := cmpListBy cmpChar a.data b.data

/-- Pre-release identifier precedence: numeric identifiers compare by
value and precede alphanumeric ones; alphanumeric compare lexically. -/
def cmpIdent : PreIdent → PreIdent → Ordering
  | .num m, .num n => compare m n
  | .num _, .alpha _ => .lt
  | .alpha _, .num _ => .gt
  | .alpha s, .alpha t => cmpStr s t

/-- Pre-release precedence: an empty pre-release (a plain release) has
higher precedence than any non-empty one; otherwise identifiers compare
pairwise, a shorter list losing ties. -/
def cmpPre : List PreIdent → List PreIdent → Ordering
  | [], [] => .eq
  | [], _ :: _ => .gt
  | _ :: _, [] => .lt
  | x :: xs, y :: ys => cmpListBy cmpIdent (x :: xs) (y :: ys)

/-- Semantic-version precedence: major, then minor, then patch, then
pre-release (the `Ord` instance of `semver::Version` restricted to
precedence). -/
def cmpSemVer (a b : SemVersion) : Ordering :=
  (compare a.major b.major).then
    ((compare a.minor b.minor).then
      ((compare a.patch b.patch).then (cmpPre a.pre b.pre)))

/-- The laws a comparison function needs for `Iterator::max` to return
a maximum: antisymmetric orientation, transitivity of `lt`, and
substitutivity of `eq`. -/
structure CmpLaws {α : Type} (f : α → α → Ordering) : Prop where
  symm : ∀ a b, f a b = (f b a).swap
  ltTrans : ∀ a b c, f a b = .lt → f b c = .lt → f a c = .lt
  eqSubst : ∀ a b, f a b = .eq → ∀ c, f a c = f b c

theorem CmpLaws.refl {α : Type} {f : α → α → Ordering} (hf : CmpLaws f)
    (a : α) : f a a = .eq := by
  have h := hf.symm a a
  cases hv : f a a <;> rw [hv] at h <;> first | rfl | exact absurd h (by simp [Ordering.swap])

theorem CmpLaws.eqSubstR {α : Type} {f : α → α → Ordering} (hf : CmpLaws f)
    {a b : α} (h : f a b = .eq) (c : α) : f c a = f c b := by
  have h1 := hf.symm c a
  have h2 := hf.symm c b
  rw [h1, h2, hf.eqSubst a b h c]

theorem CmpLaws.gt_symm {α : Type} {f : α → α → Ordering} (hf : CmpLaws f)
    {a b : α} (h : f a b = .gt) : f b a = .lt := by
  have h1 := hf.symm a b
  rw [h] at h1
  cases hv : f b a with
  | lt => rfl
  | eq => rw [hv] at h1; exact absurd h1 (by simp [Ordering.swap])
  | gt => rw [hv] at h1; exact absurd h1 (by simp [Ordering.swap])

theorem CmpLaws.leTrans {α : Type} {f : α → α → Ordering} (hf : CmpLaws f)
    {a b c : α} (hab : f a b ≠ .gt) (hbc : f b c ≠ .gt) : f a c ≠ .gt := by
  cases h1 : f a b with
  | gt => exact absurd h1 hab
  | eq => rw [hf.eqSubst a b h1 c]; exact hbc
  | lt =>
    cases h2 : f b c with
    | gt => exact absurd h2 hbc
    | eq => rw [← hf.eqSubstR h2 a, h1]; simp
    | lt => rw [hf.ltTrans a b c h1 h2]; simp

theorem CmpLaws.ofEqEq {α : Type} {f : α → α → Ordering}
    (hsymm : ∀ a b, f a b = (f b a).swap)
    (hlt : ∀ a b c, f a b = .lt → f b c = .lt → f a c = .lt)
    (heq : ∀ a b, f a b = .eq → a = b) : CmpLaws f :=
  ⟨hsymm, hlt, fun a b h c => by rw [heq a b h]⟩

theorem CmpLaws.onProj {α β : Type} (p : α → β) {f : β → β → Ordering}
    (hf : CmpLaws f) : CmpLaws (fun a b : α => f (p a) (p b)) :=
  ⟨fun a b => hf.symm _ _, fun a b c => hf.ltTrans _ _ _,
    fun a b h c => hf.eqSubst _ _ h _⟩

theorem Ordering.swap_then (x y : Ordering) :
    (x.then y).swap = x.swap.then y.swap := by
  cases x <;> rfl

theorem CmpLaws.lex {α β : Type} {f : β → β → Ordering} {g : α → α → Ordering}
    (p : α → β) (hf : CmpLaws f) (hg : CmpLaws g) :
    CmpLaws (fun a b => (f (p a) (p b)).then (g a b)) := by
  constructor
  · intro a b
    rw [hf.symm (p a) (p b), hg.symm a b, ← Ordering.swap_then]
  · intro a b c hab hbc
    simp only [] at hab hbc ⊢
    cases h1 : f (p a) (p b) with
    | gt => rw [h1] at hab; simp [Ordering.then] at hab
    | lt =>
      cases h2 : f (p b) (p c) with
      | gt => rw [h2] at hbc; simp [Ordering.then] at hbc
      | lt => rw [hf.ltTrans _ _ _ h1 h2]; rfl
      | eq => rw [← hf.eqSubstR h2 (p a), h1]; rfl
    | eq =>
      rw [h1] at hab
      simp only [Ordering.then] at hab
      cases h2 : f (p b) (p c) with
      | gt => rw [h2] at hbc; simp [Ordering.then] at hbc
      | lt => rw [hf.eqSubst _ _ h1 (p c), h2]; rfl
      | eq =>
        rw [h2] at hbc
        simp only [Ordering.then] at hbc
        rw [hf.eqSubst _ _ h1 (p c), h2]
        simp only [Ordering.then]
        exact hg.ltTrans _ _ _ hab hbc
  · intro a b hab c
    simp only [] at hab ⊢
    cases h1 : f (p a) (p b) with
    | gt => rw [h1] at hab; simp [Ordering.then] at hab
    | lt => rw [h1] at hab; simp [Ordering.then] at hab
    | eq =>
      rw [h1] at hab
      simp only [Ordering.then] at hab
      rw [hf.eqSubst _ _ h1 (p c), hg.eqSubst _ _ hab c]

theorem cmpLaws_nat : CmpLaws (fun a b : Nat => compare a b) := by
  apply CmpLaws.ofEqEq
  · intro a b
    rcases Nat.lt_trichotomy a b with h | h | h
    · rw [Nat.compare_eq_lt.mpr h, Nat.compare_eq_gt.mpr h]; rfl
    · subst h; rw [Nat.compare_eq_eq.mpr rfl]; rfl
    · rw [Nat.compare_eq_gt.mpr h, Nat.compare_eq_lt.mpr h]; rfl
  · intro a b c h1 h2
    exact Nat.compare_eq_lt.mpr
      (Nat.lt_trans (Nat.compare_eq_lt.mp h1) (Nat.compare_eq_lt.mp h2))
  · intro a b h
    exact Nat.compare_eq_eq.mp h

theorem charToNat_inj {a b : Char} (h : a.toNat = b.toNat) : a = b := by
  have hv : a.val = b.val := by
    have h1 : a.val.toNat = b.val.toNat := h
    exact UInt32.toNat.inj h1
  cases a; cases b
  simp only at hv
  subst hv
  rfl

theorem cmpLaws_char : CmpLaws cmpChar := by
  apply CmpLaws.ofEqEq
  · intro a b; exact cmpLaws_nat.symm a.toNat b.toNat
  · intro a b c h1 h2; exact cmpLaws_nat.ltTrans a.toNat b.toNat c.toNat h1 h2
  · intro a b h
    exact charToNat_inj (Nat.compare_eq_eq.mp h)

theorem cmpListBy_symm {α : Type} {f : α → α → Ordering} (hf : CmpLaws f) :
    ∀ l1 l2, cmpListBy f l1 l2 = (cmpListBy f l2 l1).swap
  | [], [] => rfl
  | [], _ :: _ => rfl
  | _ :: _, [] => rfl
  | x :: xs, y :: ys => by
    rw [cmpListBy, cmpListBy, hf.symm x y, cmpListBy_symm hf xs ys,
      ← Ordering.swap_then]

theorem cmpListBy_eqEq {α : Type} {f : α → α → Ordering}
    (hfe : ∀ a b, f a b = .eq → a = b) :
    ∀ l1 l2, cmpListBy f l1 l2 = .eq → l1 = l2
  | [], [] => fun _ => rfl
  | [], _ :: _ => by intro h; simp [cmpListBy] at h
  | _ :: _, [] => by intro h; simp [cmpListBy] at h
  | x :: xs, y :: ys => by
    intro h
    rw [cmpListBy] at h
    cases h1 : f x y with
    | lt => rw [h1] at h; simp [Ordering.then] at h
    | gt => rw [h1] at h; simp [Ordering.then] at h
    | eq =>
      rw [h1] at h
      simp only [Ordering.then] at h
      rw [hfe x y h1, cmpListBy_eqEq hfe xs ys h]

theorem cmpListBy_ltTrans {α : Type} {f : α → α → Ordering} (hf : CmpLaws f)
    (hfe : ∀ a b, f a b = .eq → a = b) :
    ∀ l1 l2 l3, cmpListBy f l1 l2 = .lt → cmpListBy f l2 l3 = .lt →
      cmpListBy f l1 l3 = .lt
  | [], [], _ => by intro h12 _; simp [cmpListBy] at h12
  | _ :: _, [], _ => by intro h12 _; simp [cmpListBy] at h12
  | [], _ :: _, [] => by intro _ h23; simp [cmpListBy] at h23
  | _ :: _, _ :: _, [] => by intro _ h23; simp [cmpListBy] at h23
  | [], _ :: _, _ :: _ => by intro _ _; rfl
  | x :: xs, y :: ys, z :: zs => by
    intro h12 h23
    rw [cmpListBy] at h12 h23 ⊢
    cases h1 : f x y with
    | gt => rw [h1] at h12; simp [Ordering.then] at h12
    | lt =>
      cases h2 : f y z with
      | gt => rw [h2] at h23; simp [Ordering.then] at h23
      | lt => rw [hf.ltTrans _ _ _ h1 h2]; rfl
      | eq =>
        have hyz := hfe y z h2
        subst hyz
        rw [h1]; rfl
    | eq =>
      rw [h1] at h12
      simp only [Ordering.then] at h12
      have hxy := hfe x y h1
      subst hxy
      cases h2 : f x z with
      | gt => rw [h2] at h23; simp [Ordering.then] at h23
      | lt => rfl
      | eq =>
        rw [h2] at h23
        simp only [Ordering.then] at h23
        simp only [Ordering.then]
        exact cmpListBy_ltTrans hf hfe xs ys zs h12 h23

theorem cmpLaws_listBy {α : Type} {f : α → α → Ordering} (hf : CmpLaws f)
    (hfe : ∀ a b, f a b = .eq → a = b) : CmpLaws (cmpListBy f) :=
  CmpLaws.ofEqEq (cmpListBy_symm hf) (cmpListBy_ltTrans hf hfe)
    (cmpListBy_eqEq hfe)

theorem cmpChar_eqEq : ∀ a b : Char, cmpChar a b = .eq → a = b :=
  fun _ _ h => charToNat_inj (Nat.compare_eq_eq.mp h)

theorem cmpStr_eqEq : ∀ a b : String, cmpStr a b = .eq → a = b := by
  intro a b h
  obtain ⟨la⟩ := a
  obtain ⟨lb⟩ := b
  have := cmpListBy_eqEq cmpChar_eqEq la lb h
  rw [this]

theorem cmpLaws_str : CmpLaws cmpStr := by
  have hl := cmpLaws_listBy cmpLaws_char cmpChar_eqEq
  apply CmpLaws.ofEqEq
  · intro a b; exact hl.symm a.data b.data
  · intro a b c h1 h2; exact hl.ltTrans a.data b.data c.data h1 h2
  · exact cmpStr_eqEq

theorem cmpIdent_eqEq : ∀ a b : PreIdent, cmpIdent a b = .eq → a = b := by
  intro a b h
  cases a <;> cases b <;> simp only [cmpIdent] at h
  · rw [Nat.compare_eq_eq.mp h]
  · exact absurd h (by simp)
  · exact absurd h (by simp)
  · rw [cmpStr_eqEq _ _ h]

theorem cmpLaws_ident : CmpLaws cmpIdent := by
  apply CmpLaws.ofEqEq
  · intro a b
    cases a <;> cases b <;> simp only [cmpIdent]
    · exact cmpLaws_nat.symm _ _
    · rfl
    · rfl
    · exact cmpLaws_str.symm _ _
  · intro a b c h1 h2
    cases a <;> cases b <;> cases c <;> simp only [cmpIdent] at h1 h2 ⊢ <;>
      first
        | trivial
        | exact cmpLaws_nat.ltTrans _ _ _ h1 h2
        | exact cmpLaws_str.ltTrans _ _ _ h1 h2
  · exact cmpIdent_eqEq

theorem cmpPre_eqEq : ∀ a b : List PreIdent, cmpPre a b = .eq → a = b := by
  intro a b h
  cases a <;> cases b <;> simp only [cmpPre] at h
  · rfl
  · exact absurd h (by simp)
  · exact absurd h (by simp)
  · exact cmpListBy_eqEq cmpIdent_eqEq _ _ h

theorem cmpLaws_pre : CmpLaws cmpPre := by
  have hl := cmpLaws_listBy cmpLaws_ident cmpIdent_eqEq
  apply CmpLaws.ofEqEq
  · intro a b
    cases a with
    | nil =>
      cases b with
      | nil => rfl
      | cons y ys => rfl
    | cons x xs =>
      cases b with
      | nil => rfl
      | cons y ys => exact hl.symm _ _
  · intro a b c h1 h2
    cases a with
    | nil =>
      cases b with
      | nil => exact Ordering.noConfusion h1
      | cons y ys => exact Ordering.noConfusion h1
    | cons x xs =>
      cases b with
      | nil =>
        cases c with
        | nil => exact Ordering.noConfusion h2
        | cons z zs => exact Ordering.noConfusion h2
      | cons y ys =>
        cases c with
        | nil => rfl
        | cons z zs =>
          simp only [cmpPre] at h1 h2 ⊢
          exact hl.ltTrans _ _ _ h1 h2
  · exact cmpPre_eqEq

/-- One step of Rust `Iterator::max` (`cmp::max_by`): keep the
accumulator when the new element is strictly smaller, otherwise take the
new element (so the last of several maxima wins). -/
def maxStep (acc v : SemVersion) : SemVersion :=
  if cmpSemVer v acc = .lt then acc else v

/-- Rust `Iterator::max` over semantic versions. -/
def rustMax (l : List SemVersion) : Option SemVersion :=
  match l with
  | [] => none
  | x :: xs => some (xs.foldl maxStep x)

/-- Error taxonomy of the `get` pipeline (§7 of the spec; in the source
these are `anyhow` errors distinguished by their message/context). -/
inductive RunError where
  | noReleasesFound
  | registry (code : Nat)
  | fetchIncomplete (code : Nat)
  | decodeFailed (code : Nat)
  | printFailed (code : Nat)
  | outputExists (path : String)
  | noParentDir
  deriving DecidableEq, Repr

/-- One release of a package as reported by the registry
(`wasm_pkg_loader::VersionInfo`). -/
structure ReleaseInfo where
  version : SemVersion
  yanked : Bool
  deriving DecidableEq, Repr

/-- Version resolution (main.rs lines 84–96): an explicit version is
used unchanged; otherwise the release list is fetched, yanked releases
are dropped (`(!vi.yanked).then_some(vi.version)`), and the maximum of
the rest is taken, `None` becoming the "No releases found" error. -/
def resolveVersion (specVersion : Option SemVersion)
    (listResult : Except Nat (List ReleaseInfo)) : Except RunError SemVersion :=
  match specVersion with
  | some v => .ok v
  | none =>
    match listResult with
    | .error c => .error (.registry c)
    | .ok versions =>
      match rustMax (versions.filterMap
          (fun vi => if vi.yanked then none else some vi.version)) with
      | some v => .ok v
      | none => .error .noReleasesFound

theorem cmpLaws_semVer : CmpLaws cmpSemVer := by
  have l1 : CmpLaws (fun a b : SemVersion =>
      (compare a.patch b.patch).then (cmpPre a.pre b.pre)) :=
    CmpLaws.lex (fun v => v.patch) cmpLaws_nat
      (CmpLaws.onProj (fun v => v.pre) cmpLaws_pre)
  have l2 : CmpLaws (fun a b : SemVersion =>
      (compare a.minor b.minor).then
        ((compare a.patch b.patch).then (cmpPre a.pre b.pre))) :=
    CmpLaws.lex (fun v => v.minor) cmpLaws_nat l1
  exact CmpLaws.lex (fun v => v.major) cmpLaws_nat l2

theorem foldl_maxStep_spec (xs : List SemVersion) (x : SemVersion) :
    xs.foldl maxStep x ∈ x :: xs ∧
    ∀ u ∈ x :: xs, cmpSemVer u (xs.foldl maxStep x) ≠ .gt := by
  induction xs generalizing x with
  | nil =>
    constructor
    · simp
    · intro u hu
      simp only [List.mem_singleton] at hu
      subst hu
      simp only [List.foldl_nil]
      rw [cmpLaws_semVer.refl u]
      simp
  | cons y ys ih =>
    obtain ⟨hmem, hmax⟩ := ih (maxStep x y)
    have hstepmem : maxStep x y = x ∨ maxStep x y = y := by
      unfold maxStep
      by_cases h : cmpSemVer y x = .lt
      · left; rw [if_pos h]
      · right; rw [if_neg h]
    have hx_le : cmpSemVer x (maxStep x y) ≠ .gt := by
      unfold maxStep
      by_cases h : cmpSemVer y x = .lt
      · rw [if_pos h, cmpLaws_semVer.refl x]; simp
      · rw [if_neg h]
        intro hgt
        exact h (cmpLaws_semVer.gt_symm hgt)
    have hy_le : cmpSemVer y (maxStep x y) ≠ .gt := by
      unfold maxStep
      by_cases h : cmpSemVer y x = .lt
      · rw [if_pos h, h]; simp
      · rw [if_neg h, cmpLaws_semVer.refl y]; simp
    have hstep_le : cmpSemVer (maxStep x y) (ys.foldl maxStep (maxStep x y)) ≠ .gt :=
      hmax (maxStep x y) (List.mem_cons_self _ _)
    constructor
    · simp only [List.foldl_cons]
      rcases List.mem_cons.mp hmem with h0 | h0
      · rcases hstepmem with h1 | h1 <;> rw [h0, h1] <;> simp
      · simp [h0]
    · intro u hu
      simp only [List.foldl_cons]
      rcases List.mem_cons.mp hu with h0 | h0
      · subst h0
        exact cmpLaws_semVer.leTrans hx_le hstep_le
      rcases List.mem_cons.mp h0 with h1 | h1
      · subst h1
        exact cmpLaws_semVer.leTrans hy_le hstep_le
      · exact hmax u (List.mem_cons_of_mem _ h1)

/-- **C4.** For every release list, resolution with no explicit version
filters out the yanked releases and returns a maximum of the remaining
versions under semantic-version precedence (`cmpSemVer`); when the
filtered list is empty it fails with `NoReleasesFound`. In particular,
for `[1.0.0, 1.2.0 (yanked), 2.0.0]` it returns `2.0.0`. -/
theorem resolve_latest_nonyanked :
    (∀ versions : List ReleaseInfo,
      (versions.filterMap (fun vi => if vi.yanked then none else some vi.version) = [] →
        resolveVersion none (.ok versions) = .error .noReleasesFound) ∧
      (∀ v, resolveVersion none (.ok versions) = .ok v →
        v ∈ versions.filterMap (fun vi => if vi.yanked then none else some vi.version) ∧
        ∀ u ∈ versions.filterMap (fun vi => if vi.yanked then none else some vi.version),
          cmpSemVer u v ≠ .gt) ∧
      (versions.filterMap (fun vi => if vi.yanked then none else some vi.version) ≠ [] →
        (resolveVersion none (.ok versions)).isOk = true)) ∧
    resolveVersion none (.ok
      [⟨⟨1, 0, 0, []⟩, false⟩, ⟨⟨1, 2, 0, []⟩, true⟩, ⟨⟨2, 0, 0, []⟩, false⟩])
      = .ok ⟨2, 0, 0, []⟩ := by
  have hunfold : ∀ versions : List ReleaseInfo,
      resolveVersion none (.ok versions) =
        match rustMax (versions.filterMap
            (fun vi => if vi.yanked then none else some vi.version)) with
        | some v => .ok v
        | none => .error .noReleasesFound := fun _ => rfl
  constructor
  · intro versions
    refine ⟨?_, ?_, ?_⟩
    · intro hrem
      rw [hunfold versions, hrem]
      rfl
    · intro v hv
      rw [hunfold versions] at hv
      cases hrem : versions.filterMap
          (fun vi => if vi.yanked then none else some vi.version) with
      | nil => rw [hrem] at hv; exact absurd hv (by simp [rustMax])
      | cons x xs =>
        rw [hrem] at hv
        simp only [rustMax, Except.ok.injEq] at hv
        obtain ⟨hmem, hmax⟩ := foldl_maxStep_spec xs x
        rw [hv] at hmem hmax
        exact ⟨hmem, hmax⟩
    · intro hrem
      rw [hunfold versions]
      cases hrem2 : versions.filterMap
          (fun vi => if vi.yanked then none else some vi.version) with
      | nil => exact absurd hrem2 hrem
      | cons x xs => rfl
  · rfl

/-- Witness for C4: a release list whose only release is yanked resolves
to `NoReleasesFound`. -/
theorem resolve_latest_nonyanked_witness :
    resolveVersion none (.ok [⟨⟨1, 0, 0, []⟩, true⟩]) = .error .noReleasesFound :=
  (resolve_latest_nonyanked.1 [⟨⟨1, 0, 0, []⟩, true⟩]).1 rfl

/-! ## The `GetCommand::run` pipeline -/

/-- Output format flag (`Format` in main.rs). -/
inductive OutFormat where
  | auto
  | wasm
  | wit
  deriving DecidableEq, Repr

/-- Outcome of `wit_component::decode_reader` followed by
`WitPrinter::print` on a decoded WIT package: a WIT package together
with the printer's result, some other artifact kind, or a decode
failure. -/
inductive DecodeOutcome where
  | witPackage (printResult : Except Nat String)
  | otherArtifact
  | failed (code : Nat)

/-- Format selection from the output file extension (main.rs lines
125–139): only an `Auto` request inspects the extension; `wasm`/`wit`
extensions are adopted, anything else (or no extension) stays `Auto`. -/
def effectiveFormat (f : OutFormat) (ext : Option String) : OutFormat :=
  match f, ext with
  | .auto, some e =>
    if e = "wasm" then .wasm else if e = "wit" then .wit else .auto
  | _, _ => f

/-- The decode step (main.rs lines 141–161): skipped entirely for
`Wasm`; a decoded WIT package is printed (printer failure propagating);
any other artifact kind yields no text; a decode failure is fatal
exactly for `Wit` and otherwise degrades to no text. -/
def decodePhase (fmt : OutFormat) (outcome : DecodeOutcome) :
    Except RunError (Option String) :=
  if fmt = .wasm then .ok none
  else
    match outcome with
    | .witPackage (.ok s) => .ok (some s)
    | .witPackage (.error c) => .error (.printFailed c)
    | .otherArtifact => .ok none
    | .failed c => if fmt = .wit then .error (.decodeFailed c) else .ok none

/-- Rendering of one pre-release identifier (semver `Display`). -/
def preIdentString : PreIdent → String
  | .num n => toString n
  | .alpha s => s

/-- Rendering of a pre-release list, dot-separated. -/
def preString (l : List PreIdent) : String :=
  String.intercalate "." (l.map preIdentString)

/-- `Display` of a semantic version: `major.minor.patch[-pre]`. -/
def versionString (v : SemVersion) : String :=
  toString v.major ++ "." ++ toString v.minor ++ "." ++ toString v.patch ++
    (if v.pre.isEmpty then "" else "-" ++ preString v.pre)

/-- Directory-mode file name `{namespace}_{name}@{version}.{ext}`
(main.rs lines 163–169), with extension `wit` exactly when decoded text
was produced. -/
def synthFileName (ns nm : String) (v : SemVersion) (w : Option String) :
    String :=
  ns ++ "_" ++ nm ++ "@" ++ versionString v ++ "." ++
    (if w.isSome then "wit" else "wasm")

/-- `ends_with('/')` on the output path string: the last character is a
slash. -/
def endsWithSlash (s : String) : Bool := s.data.getLast? = some '/'

/-- The final output path (main.rs lines 163–172): a trailing slash
selects directory mode (join with the synthesized file name); otherwise
the output path is used verbatim. -/
def finalOutputPath (output ns nm : String) (v : SemVersion)
    (w : Option String) : String :=
  if endsWithSlash output then output ++ synthFileName ns nm v w else output

/-- UTF-8 bytes of a string (`std::fs::write` writes the UTF-8 bytes of
the WIT text). -/
def strBytes (s : String) : List Nat :=
  s.data.flatMap (fun ch => (String.utf8EncodeChar ch).map (fun b => b.toNat))

/-- Split a character list at every occurrence of `c` (the pieces, in
order, without the separators). -/
def splitOnCharAll (c : Char) : List Char → List (List Char)
  | [] => [[]]
  | a :: rest =>
    match splitOnCharAll c rest with
    | [] => [[a]]
    | h :: t => if a = c then [] :: h :: t else (a :: h) :: t

/-- Rust `Path::file_name`: the last `/`-separated component, skipping
empty and `.` components; `none` when there is none or it is `..`. -/
def fileNameOf (s : String) : Option (List Char) :=
  match ((splitOnCharAll '/' s.data).filter
      (fun t => !(t = [] : Bool) && !(t = ['.'] : Bool))).getLast? with
  | none => none
  | some t => if t = ['.', '.'] then none else some t

/-- Rust `Path::extension`: the part of the file name after the last
dot, provided a dot exists at a position other than the start. -/
def pathExtension (s : String) : Option String :=
  match fileNameOf s with
  | none => none
  | some b =>
    let extR := b.reverse.takeWhile (fun c => !(c = '.' : Bool))
    if extR.length = b.length then none
    else if extR.length + 1 = b.length then none
    else some (String.mk extR.reverse)

/-- Rust `Path::parent` is `None` only for an empty path or a bare
root; the source uses it just to place the temp file next to the
output, so the model keeps only the possible error. -/
def parentMissing (s : String) : Bool := s = "" || s = "/"

/-- Observable file-system (and console-warning) events of one run.
`tempRemove` models the `TempPath` drop deleting the temp file;
`createFinal`/`appendFinal` model `std::fs::write` (create-and-truncate
followed by writing the bytes); `renameTemp` models
`TempPath::persist`. -/
inductive Event where
  | tempCreate
  | tempWrite (chunk : List Nat)
  | tempRemove
  | createFinal (path : String)
  | appendFinal (path : String) (content : List Nat)
  | renameTemp (path : String)
  | warnDecode (code : Nat)
  deriving DecidableEq, Repr

/-- Whether an event is a direct write of fresh content to a final
path (the non-atomic `std::fs::write` start). -/
def Event.isCreateFinal : Event → Bool
  | .createFinal _ => true
  | _ => false

/-- File-system state: contents at final paths, plus the temp file
contents (`none` = temp file absent). -/
structure FSState where
  final : String → Option (List Nat)
  temp : Option (List Nat)

/-- Pointwise update of the final-path map. -/
def setPath (f : String → Option (List Nat)) (p : String)
    (v : Option (List Nat)) : String → Option (List Nat) :=
  fun q => if q = p then v else f q

/-- Effect of one event on the file system. -/
def applyEvent (fs : FSState) : Event → FSState
  | .tempCreate => { fs with temp := some [] }
  | .tempWrite c => { fs with temp := fs.temp.map (fun t => t ++ c) }
  | .tempRemove => { fs with temp := none }
  | .createFinal p => { fs with final := setPath fs.final p (some []) }
  | .appendFinal p c =>
    { fs with final := setPath fs.final p (some ((fs.final p).getD [] ++ c)) }
  | .renameTemp p => { final := setPath fs.final p fs.temp, temp := none }
  | .warnDecode _ => fs

/-- Effect of an event sequence. -/
def applyEvents (fs : FSState) (evs : List Event) : FSState :=
  evs.foldl applyEvent fs

/-- Environment of one `wkg get` invocation: the parsed package and the
command-line flags, plus the behaviour of the external collaborators
(registry answers, the content stream as its yielded chunks and an
optional terminating error, the decoder as an oracle on the fetched
bytes) and the initial contents of the file system. -/
structure GetEnv where
  nspace : String
  pname : String
  specVersion : Option SemVersion
  listVersions : Except Nat (List ReleaseInfo)
  releaseResult : Except Nat Unit
  streamOpen : Except Nat Unit
  chunks : List (List Nat)
  streamTail : Option Nat
  decode : List Nat → DecodeOutcome
  output : String
  fmt : OutFormat
  overwrite : Bool
  fs0 : String → Option (List Nat)

/-- A run: the emitted event trace and the final result. -/
structure RunResult where
  trace : List Event
  result : Except RunError String

/-- The initial file-system state of an environment. -/
def initFS (e : GetEnv) : FSState := { final := e.fs0, temp := none }

/-- The console warning emitted when auto-detection fails (main.rs line
157): only in `Auto` mode and only for a decode failure. -/
def detectWarn (e : GetEnv) : List Event :=
  if effectiveFormat e.fmt (pathExtension e.output) = .auto then
    match e.decode e.chunks.flatten with
    | .failed c => [.warnDecode c]
    | _ => []
  else []

/-- The post-fetch phase of `GetCommand::run` (main.rs lines 125–189):
pick the effective format, maybe decode (emitting the detection warning
when auto-detection fails), compute the final path, check for
clobbering, and publish decoded text by a fresh write or the raw temp
file by rename. Its trace excludes the fetch events; every error return
drops the `TempPath`, removing the temp file. -/
def afterFetch (e : GetEnv) (ver : SemVersion) : RunResult :=
  let warn : List Event := detectWarn e
  match decodePhase (effectiveFormat e.fmt (pathExtension e.output))
      (e.decode e.chunks.flatten) with
  | .error er => ⟨[Event.tempRemove], .error er⟩
  | .ok wit =>
    let outPath := finalOutputPath e.output e.nspace e.pname ver wit
    if !e.overwrite && (e.fs0 outPath).isSome then
      ⟨warn ++ [Event.tempRemove], .error (.outputExists outPath)⟩
    else
      match wit with
      | some t =>
        ⟨warn ++ [Event.createFinal outPath,
          Event.appendFinal outPath (strBytes t), Event.tempRemove],
          .ok outPath⟩
      | none => ⟨warn ++ [Event.renameTemp outPath], .ok outPath⟩

/-- `GetCommand::run` (main.rs lines 67–189): resolve the version, get
the release, create the temp file next to the output, stream all chunks
into it (a stream error propagating and dropping the temp file), then
run the post-fetch phase `afterFetch`. -/
def runGet (e : GetEnv) : RunResult :=
  match resolveVersion e.specVersion e.listVersions with
  | .error er => ⟨[], .error er⟩
  | .ok ver =>
    match e.releaseResult with
    | .error c => ⟨[], .error (.registry c)⟩
    | .ok _ =>
      if !endsWithSlash e.output && parentMissing e.output then
        ⟨[], .error .noParentDir⟩
      else
        match e.streamOpen with
        | .error c => ⟨[.tempCreate, .tempRemove], .error (.registry c)⟩
        | .ok _ =>
          match e.streamTail with
          | some c =>
            ⟨.tempCreate :: e.chunks.map Event.tempWrite ++ [.tempRemove],
              .error (.fetchIncomplete c)⟩
          | none =>
            ⟨.tempCreate :: e.chunks.map Event.tempWrite
                ++ (afterFetch e ver).trace,
              (afterFetch e ver).result⟩

/-! ## Generic trace lemmas -/

/-- Whether an event touches the final-path map at all. -/
def Event.touchesFinal : Event → Bool
  | .createFinal _ => true
  | .appendFinal _ _ => true
  | .renameTemp _ => true
  | _ => false

theorem applyEvents_append (fs : FSState) (evs1 evs2 : List Event) :
    applyEvents fs (evs1 ++ evs2) = applyEvents (applyEvents fs evs1) evs2 :=
  List.foldl_append _ _ _ _

theorem applyEvents_final_invariant (evs : List Event) :
    ∀ fs : FSState, (∀ ev ∈ evs, ev.touchesFinal = false) →
      (applyEvents fs evs).final = fs.final := by
  induction evs with
  | nil => intro fs _; rfl
  | cons ev rest ih =>
    intro fs hall
    have hev : ev.touchesFinal = false := hall ev (List.mem_cons_self _ _)
    have hrest : ∀ e2 ∈ rest, e2.touchesFinal = false :=
      fun e2 h2 => hall e2 (List.mem_cons_of_mem _ h2)
    have hstep : (applyEvent fs ev).final = fs.final := by
      cases ev <;> first | rfl | simp [Event.touchesFinal] at hev
    calc (applyEvents fs (ev :: rest)).final
        = (applyEvents (applyEvent fs ev) rest).final := rfl
      _ = (applyEvent fs ev).final := ih _ hrest
      _ = fs.final := hstep

theorem tempWrite_touchesFinal (chunks : List (List Nat)) :
    ∀ ev ∈ chunks.map Event.tempWrite, ev.touchesFinal = false := by
  intro ev hev
  obtain ⟨c, _, hc⟩ := List.mem_map.mp hev
  rw [← hc]
  rfl

theorem applyEvents_tempWrites (chunks : List (List Nat)) :
    ∀ (fs : FSState) (t : List Nat),
      (applyEvents { fs with temp := some t } (chunks.map Event.tempWrite)).temp
        = some (t ++ chunks.flatten) := by
  induction chunks with
  | nil => intro fs t; simp [applyEvents]
  | cons c cs ih =>
    intro fs t
    have hstep : applyEvent { fs with temp := some t } (Event.tempWrite c)
        = { fs with temp := some (t ++ c) } := rfl
    calc (applyEvents { fs with temp := some t }
            ((c :: cs).map Event.tempWrite)).temp
        = (applyEvents { fs with temp := some (t ++ c) }
            (cs.map Event.tempWrite)).temp := by
          simp only [List.map_cons]
          rw [applyEvents, List.foldl_cons, hstep]
          rfl
      _ = some ((t ++ c) ++ cs.flatten) := ih fs (t ++ c)
      _ = some (t ++ (c :: cs).flatten) := by simp

theorem take_fetch_prefix (chunks : List (List Nat)) (rest : List Event) :
    (Event.tempCreate :: chunks.map Event.tempWrite ++ rest).take
        (1 + chunks.length)
      = Event.tempCreate :: chunks.map Event.tempWrite := by
  have hlen : (Event.tempCreate :: chunks.map Event.tempWrite).length
      = 1 + chunks.length := by
    simp [Nat.add_comm]
  rw [← hlen, List.take_left]

theorem runGet_reached (e : GetEnv) (ver : SemVersion)
    (h1 : resolveVersion e.specVersion e.listVersions = .ok ver)
    (h2 : e.releaseResult = .ok ())
    (h3 : (!endsWithSlash e.output && parentMissing e.output) = false)
    (h4 : e.streamOpen = .ok ())
    (h5 : e.streamTail = none) :
    runGet e = ⟨Event.tempCreate :: e.chunks.map Event.tempWrite
        ++ (afterFetch e ver).trace,
      (afterFetch e ver).result⟩ := by
  unfold runGet
  rw [h1, h2, h3, h4, h5]
  rfl

theorem setPath_same (f : String → Option (List Nat)) (p : String)
    (v : Option (List Nat)) : setPath f p v p = v := by
  simp [setPath]

theorem setPath_other (f : String → Option (List Nat)) (p : String)
    (v : Option (List Nat)) (q : String) (h : q ≠ p) : setPath f p v q = f q := by
  simp [setPath, h]

theorem FSState.ext (a b : FSState) (h1 : a.final = b.final)
    (h2 : a.temp = b.temp) : a = b := by
  cases a
  cases b
  simp only at h1 h2
  rw [h1, h2]

theorem afterFetch_decode_err (e : GetEnv) (ver : SemVersion) (er : RunError)
    (hd : decodePhase (effectiveFormat e.fmt (pathExtension e.output))
      (e.decode e.chunks.flatten) = .error er) :
    afterFetch e ver = ⟨[Event.tempRemove], .error er⟩ := by
  simp only [afterFetch]
  rw [hd]

theorem afterFetch_decode_ok (e : GetEnv) (ver : SemVersion) (wit : Option String)
    (hd : decodePhase (effectiveFormat e.fmt (pathExtension e.output))
      (e.decode e.chunks.flatten) = .ok wit) :
    afterFetch e ver =
      (if !e.overwrite &&
          (e.fs0 (finalOutputPath e.output e.nspace e.pname ver wit)).isSome then
        ⟨detectWarn e ++ [Event.tempRemove],
          .error (.outputExists (finalOutputPath e.output e.nspace e.pname ver wit))⟩
      else
        match wit with
        | some t =>
          ⟨detectWarn e ++
            [Event.createFinal (finalOutputPath e.output e.nspace e.pname ver wit),
              Event.appendFinal (finalOutputPath e.output e.nspace e.pname ver wit)
                (strBytes t),
              Event.tempRemove],
            .ok (finalOutputPath e.output e.nspace e.pname ver wit)⟩
        | none =>
          ⟨detectWarn e ++
            [Event.renameTemp (finalOutputPath e.output e.nspace e.pname ver wit)],
            .ok (finalOutputPath e.output e.nspace e.pname ver wit)⟩) := by
  simp only [afterFetch, hd]
  cases wit <;> rfl

theorem fetch_prefix_fs (e : GetEnv) :
    applyEvents (initFS e) (Event.tempCreate :: e.chunks.map Event.tempWrite)
      = { final := e.fs0, temp := some e.chunks.flatten } := by
  apply FSState.ext
  · have hall : ∀ ev ∈ Event.tempCreate :: e.chunks.map Event.tempWrite,
        ev.touchesFinal = false := by
      intro ev hev
      rcases List.mem_cons.mp hev with h | h
      · rw [h]; rfl
      · exact tempWrite_touchesFinal _ _ h
    exact applyEvents_final_invariant _ _ hall
  · calc (applyEvents (initFS e)
          (Event.tempCreate :: e.chunks.map Event.tempWrite)).temp
        = (applyEvents { initFS e with temp := some [] }
            (e.chunks.map Event.tempWrite)).temp := rfl
      _ = some ([] ++ e.chunks.flatten) :=
          applyEvents_tempWrites e.chunks (initFS e) []
      _ = some e.chunks.flatten := by simp

theorem detectWarn_mem (e : GetEnv) :
    ∀ ev ∈ detectWarn e, ∃ c, ev = Event.warnDecode c := by
  intro ev hev
  unfold detectWarn at hev
  by_cases h : effectiveFormat e.fmt (pathExtension e.output) = .auto
  · rw [if_pos h] at hev
    cases hdc : e.decode e.chunks.flatten with
    | witPackage pr => rw [hdc] at hev; simp at hev
    | otherArtifact => rw [hdc] at hev; simp at hev
    | failed c =>
      rw [hdc] at hev
      simp only [List.mem_singleton] at hev
      exact ⟨c, hev⟩
  · rw [if_neg h] at hev
    simp at hev

theorem detectWarn_apply (e : GetEnv) (S : FSState) :
    applyEvents S (detectWarn e) = S := by
  unfold detectWarn
  by_cases h : effectiveFormat e.fmt (pathExtension e.output) = .auto
  · rw [if_pos h]
    cases e.decode e.chunks.flatten <;> rfl
  · rw [if_neg h]
    rfl

theorem runGet_resolve_err (e : GetEnv) (er : RunError)
    (h : resolveVersion e.specVersion e.listVersions = .error er) :
    runGet e = ⟨[], .error er⟩ := by
  unfold runGet
  rw [h]

theorem runGet_release_err (e : GetEnv) (ver : SemVersion) (c : Nat)
    (h1 : resolveVersion e.specVersion e.listVersions = .ok ver)
    (h2 : e.releaseResult = .error c) :
    runGet e = ⟨[], .error (.registry c)⟩ := by
  unfold runGet
  rw [h1, h2]

theorem runGet_parent_err (e : GetEnv) (ver : SemVersion)
    (h1 : resolveVersion e.specVersion e.listVersions = .ok ver)
    (h2 : e.releaseResult = .ok ())
    (h3 : (!endsWithSlash e.output && parentMissing e.output) = true) :
    runGet e = ⟨[], .error .noParentDir⟩ := by
  unfold runGet
  rw [h1, h2, h3]
  rfl

theorem runGet_open_err (e : GetEnv) (ver : SemVersion) (c : Nat)
    (h1 : resolveVersion e.specVersion e.listVersions = .ok ver)
    (h2 : e.releaseResult = .ok ())
    (h3 : (!endsWithSlash e.output && parentMissing e.output) = false)
    (h4 : e.streamOpen = .error c) :
    runGet e = ⟨[.tempCreate, .tempRemove], .error (.registry c)⟩ := by
  unfold runGet
  rw [h1, h2, h3, h4]
  rfl

theorem runGet_stream_err (e : GetEnv) (ver : SemVersion) (c : Nat)
    (h1 : resolveVersion e.specVersion e.listVersions = .ok ver)
    (h2 : e.releaseResult = .ok ())
    (h3 : (!endsWithSlash e.output && parentMissing e.output) = false)
    (h4 : e.streamOpen = .ok ())
    (h5 : e.streamTail = some c) :
    runGet e = ⟨Event.tempCreate :: e.chunks.map Event.tempWrite
        ++ [Event.tempRemove],
      .error (.fetchIncomplete c)⟩ := by
  unfold runGet
  rw [h1, h2, h3, h4, h5]
  rfl

/-- **C8.** For every run whose content stream completes without error,
the fetch stage writes every yielded chunk to the temp file in stream
order — the trace begins with the temp-file creation followed by one
write event per chunk, in order — and replaying exactly that prefix
leaves the temp file holding the byte-for-byte concatenation of the
chunks. -/
theorem fetch_concatenates_chunks (e : GetEnv) (ver : SemVersion)
    (h1 : resolveVersion e.specVersion e.listVersions = .ok ver)
    (h2 : e.releaseResult = .ok ())
    (h3 : (!endsWithSlash e.output && parentMissing e.output) = false)
    (h4 : e.streamOpen = .ok ())
    (h5 : e.streamTail = none) :
    (runGet e).trace.take (1 + e.chunks.length)
      = Event.tempCreate :: e.chunks.map Event.tempWrite ∧
    (applyEvents (initFS e)
        (Event.tempCreate :: e.chunks.map Event.tempWrite)).temp
      = some e.chunks.flatten := by
  constructor
  · rw [runGet_reached e ver h1 h2 h3 h4 h5]
    exact take_fetch_prefix _ _
  · rw [fetch_prefix_fs e]

/-- A concrete environment whose stream yields `[b"ab", b"cd"]` and
completes. -/
def envStreamOk : GetEnv :=
  ⟨"ns", "pkg", some ⟨1, 0, 0, []⟩, .ok [], .ok (), .ok (),
    [[97, 98], [99, 100]], none, fun _ => .otherArtifact, "out.wasm",
    .auto, true, fun _ => none⟩

/-- Witness for C8: chunks `[b"ab", b"cd"]` yield temp contents
`"abcd"`. -/
theorem fetch_concatenates_chunks_witness :
    (runGet envStreamOk).trace.take 3
      = [Event.tempCreate, Event.tempWrite [97, 98], Event.tempWrite [99, 100]] ∧
    (applyEvents (initFS envStreamOk)
        [Event.tempCreate, Event.tempWrite [97, 98],
          Event.tempWrite [99, 100]]).temp
      = some [97, 98, 99, 100] :=
  fetch_concatenates_chunks envStreamOk ⟨1, 0, 0, []⟩ rfl rfl (by decide) rfl rfl

/-- **C5.** For every run whose content stream terminates with an error
before completing: the run fails, the partial temp file is discarded
(not present in the final file-system state), nothing is committed to
any final output path, and — whenever the run did reach the streaming
stage — the failure is exactly the propagated stream error
(`FetchIncomplete`). -/
theorem stream_error_discards (e : GetEnv) (c : Nat)
    (h : e.streamTail = some c) :
    (runGet e).result.isOk = false ∧
    (applyEvents (initFS e) (runGet e).trace).temp = none ∧
    (∀ p, (applyEvents (initFS e) (runGet e).trace).final p = e.fs0 p) ∧
    (∀ ver, resolveVersion e.specVersion e.listVersions = .ok ver →
      e.releaseResult = .ok () →
      (!endsWithSlash e.output && parentMissing e.output) = false →
      e.streamOpen = .ok () →
      (runGet e).result = .error (.fetchIncomplete c)) := by
  cases hr : resolveVersion e.specVersion e.listVersions with
  | error er =>
    rw [runGet_resolve_err e er hr]
    refine ⟨rfl, rfl, fun p => rfl, ?_⟩
    intro ver h1 _ _ _
    exact absurd h1 (by simp)
  | ok ver =>
    cases hrel : e.releaseResult with
    | error c2 =>
      rw [runGet_release_err e ver c2 hr hrel]
      refine ⟨rfl, rfl, fun p => rfl, ?_⟩
      intro ver2 _ h2 _ _
      exact absurd h2 (by simp)
    | ok u =>
      cases u
      by_cases hp : (!endsWithSlash e.output && parentMissing e.output) = true
      · rw [runGet_parent_err e ver hr hrel hp]
        refine ⟨rfl, rfl, fun p => rfl, ?_⟩
        intro ver2 _ _ h3 _
        rw [h3] at hp
        exact absurd hp (by simp)
      · have hp2 : (!endsWithSlash e.output && parentMissing e.output) = false := by
          revert hp
          cases !endsWithSlash e.output && parentMissing e.output <;> simp
        cases hop : e.streamOpen with
        | error c3 =>
          rw [runGet_open_err e ver c3 hr hrel hp2 hop]
          refine ⟨rfl, rfl, fun p => rfl, ?_⟩
          intro ver2 _ _ _ h4
          exact absurd h4 (by simp)
        | ok u2 =>
          cases u2
          rw [runGet_stream_err e ver c hr hrel hp2 hop h]
          refine ⟨rfl, ?_, ?_, ?_⟩
          · rw [applyEvents_append, fetch_prefix_fs]
            rfl
          · intro p
            rw [applyEvents_append, fetch_prefix_fs]
            rfl
          · intro ver2 _ _ _ _
            rfl

/-- A concrete environment whose stream yields `[b"ab"]` and then
errors. -/
def envStreamErr : GetEnv :=
  ⟨"ns", "pkg", some ⟨1, 0, 0, []⟩, .ok [], .ok (), .ok (),
    [[97, 98]], some 7, fun _ => .otherArtifact, "out.wasm",
    .auto, true, fun _ => none⟩

/-- Witness for C5: a stream erroring after `[b"ab"]` fails with the
propagated error, discards the temp file and commits nothing. -/
theorem stream_error_discards_witness :
    (runGet envStreamErr).result = .error (.fetchIncomplete 7) ∧
    (applyEvents (initFS envStreamErr) (runGet envStreamErr).trace).temp
      = none ∧
    (applyEvents (initFS envStreamErr) (runGet envStreamErr).trace).final
      "out.wasm" = none := by
  have h := stream_error_discards envStreamErr 7 rfl
  exact ⟨h.2.2.2 ⟨1, 0, 0, []⟩ rfl rfl (by decide) rfl, h.2.1, h.2.2.1 "out.wasm"⟩

theorem setPath_setPath (f : String → Option (List Nat)) (p : String)
    (v w : Option (List Nat)) : setPath (setPath f p v) p w = setPath f p w := by
  funext q
  by_cases h : q = p <;> simp [setPath, h]

theorem apply_publish_wit (f : String → Option (List Nat))
    (tmp : Option (List Nat)) (P : String) (b : List Nat) :
    applyEvents ⟨f, tmp⟩
      [Event.createFinal P, Event.appendFinal P b, Event.tempRemove]
      = ⟨setPath f P (some b), none⟩ := by
  apply FSState.ext
  · calc (applyEvents ⟨f, tmp⟩ [Event.createFinal P, Event.appendFinal P b,
          Event.tempRemove]).final
        = setPath (setPath f P (some []))
            P (some ((setPath f P (some []) P).getD [] ++ b)) := rfl
      _ = setPath (setPath f P (some [])) P (some b) := by
            rw [setPath_same]
            simp
      _ = setPath f P (some b) := setPath_setPath f P _ _
  · rfl

theorem apply_publish_rename (f : String → Option (List Nat))
    (tmp : Option (List Nat)) (P : String) :
    applyEvents ⟨f, tmp⟩ [Event.renameTemp P] = ⟨setPath f P tmp, none⟩ := rfl

theorem apply_temp_remove (f : String → Option (List Nat))
    (tmp : Option (List Nat)) :
    applyEvents ⟨f, tmp⟩ [Event.tempRemove] = ⟨f, none⟩ := rfl

/-- **C7.** For every run that reaches publishing, the existence check:
the run fails with `OutputExists` (naming the final path) exactly when
the final path already exists and the overwrite flag is not set; in
that failure the final paths are left unchanged; with overwrite set the
run succeeds and the final path holds the published artifact (decoded
text, or the raw bytes). -/
theorem output_exists_check (e : GetEnv) (ver : SemVersion) (w : Option String)
    (h1 : resolveVersion e.specVersion e.listVersions = .ok ver)
    (h2 : e.releaseResult = .ok ())
    (h3 : (!endsWithSlash e.output && parentMissing e.output) = false)
    (h4 : e.streamOpen = .ok ())
    (h5 : e.streamTail = none)
    (h6 : decodePhase (effectiveFormat e.fmt (pathExtension e.output))
      (e.decode e.chunks.flatten) = .ok w) :
    ((runGet e).result
        = .error (.outputExists (finalOutputPath e.output e.nspace e.pname ver w))
      ↔ (e.fs0 (finalOutputPath e.output e.nspace e.pname ver w)).isSome = true
        ∧ e.overwrite = false) ∧
    (e.overwrite = false →
      (e.fs0 (finalOutputPath e.output e.nspace e.pname ver w)).isSome = true →
      ∀ p, (applyEvents (initFS e) (runGet e).trace).final p = e.fs0 p) ∧
    (e.overwrite = true →
      (runGet e).result = .ok (finalOutputPath e.output e.nspace e.pname ver w) ∧
      (applyEvents (initFS e) (runGet e).trace).final
          (finalOutputPath e.output e.nspace e.pname ver w)
        = some (match w with
            | some t => strBytes t
            | none => e.chunks.flatten)) := by
  have hrun := runGet_reached e ver h1 h2 h3 h4 h5
  by_cases hov : (!e.overwrite &&
      (e.fs0 (finalOutputPath e.output e.nspace e.pname ver w)).isSome) = true
  · have haf2 : afterFetch e ver =
        ⟨detectWarn e ++ [Event.tempRemove],
          .error (.outputExists (finalOutputPath e.output e.nspace e.pname ver w))⟩ := by
      rw [afterFetch_decode_ok e ver w h6, if_pos hov]
    have hres : (runGet e).result
        = .error (.outputExists (finalOutputPath e.output e.nspace e.pname ver w)) := by
      rw [hrun, haf2]
    have htrace : (runGet e).trace
        = (Event.tempCreate :: e.chunks.map Event.tempWrite)
          ++ (detectWarn e ++ [Event.tempRemove]) := by
      rw [hrun, haf2]
    have hand := hov
    rw [Bool.and_eq_true] at hand
    obtain ⟨hnov, hsome⟩ := hand
    have hover : e.overwrite = false := by
      revert hnov
      cases e.overwrite <;> simp
    refine ⟨⟨fun _ => ⟨hsome, hover⟩, fun _ => hres⟩, ?_, ?_⟩
    · intro _ _ p
      rw [htrace, applyEvents_append, fetch_prefix_fs, applyEvents_append,
        detectWarn_apply, apply_temp_remove]
    · intro hovr
      rw [hovr] at hov
      simp at hov
  · have hov2 : ¬(!e.overwrite &&
        (e.fs0 (finalOutputPath e.output e.nspace e.pname ver w)).isSome) = true := hov
    cases w with
    | some t =>
      have haf2 : afterFetch e ver =
          ⟨detectWarn e ++
            [Event.createFinal (finalOutputPath e.output e.nspace e.pname ver (some t)),
              Event.appendFinal (finalOutputPath e.output e.nspace e.pname ver (some t))
                (strBytes t),
              Event.tempRemove],
            .ok (finalOutputPath e.output e.nspace e.pname ver (some t))⟩ := by
        rw [afterFetch_decode_ok e ver (some t) h6, if_neg hov2]
      have hres : (runGet e).result
          = .ok (finalOutputPath e.output e.nspace e.pname ver (some t)) := by
        rw [hrun, haf2]
      have htrace : (runGet e).trace
          = (Event.tempCreate :: e.chunks.map Event.tempWrite)
            ++ (detectWarn e ++
              [Event.createFinal (finalOutputPath e.output e.nspace e.pname ver (some t)),
                Event.appendFinal (finalOutputPath e.output e.nspace e.pname ver (some t))
                  (strBytes t),
                Event.tempRemove]) := by
        rw [hrun, haf2]
      refine ⟨⟨?_, ?_⟩, ?_, ?_⟩
      · intro h0
        rw [hres] at h0
        exact absurd h0 (by simp)
      · intro ⟨hsome, hover⟩
        have hc : (!e.overwrite &&
            (e.fs0 (finalOutputPath e.output e.nspace e.pname ver (some t))).isSome)
            = true := by
          rw [hover, hsome]
          rfl
        exact absurd hc hov2
      · intro hover hsome
        have hc : (!e.overwrite &&
            (e.fs0 (finalOutputPath e.output e.nspace e.pname ver (some t))).isSome)
            = true := by
          rw [hover, hsome]
          rfl
        exact absurd hc hov2
      · intro _
        refine ⟨hres, ?_⟩
        rw [htrace, applyEvents_append, fetch_prefix_fs, applyEvents_append,
          detectWarn_apply, apply_publish_wit]
        exact setPath_same _ _ _
    | none =>
      have haf2 : afterFetch e ver =
          ⟨detectWarn e ++
            [Event.renameTemp (finalOutputPath e.output e.nspace e.pname ver none)],
            .ok (finalOutputPath e.output e.nspace e.pname ver none)⟩ := by
        rw [afterFetch_decode_ok e ver none h6, if_neg hov2]
      have hres : (runGet e).result
          = .ok (finalOutputPath e.output e.nspace e.pname ver none) := by
        rw [hrun, haf2]
      have htrace : (runGet e).trace
          = (Event.tempCreate :: e.chunks.map Event.tempWrite)
            ++ (detectWarn e ++
              [Event.renameTemp (finalOutputPath e.output e.nspace e.pname ver none)]) := by
        rw [hrun, haf2]
      refine ⟨⟨?_, ?_⟩, ?_, ?_⟩
      · intro h0
        rw [hres] at h0
        exact absurd h0 (by simp)
      · intro ⟨hsome, hover⟩
        have hc : (!e.overwrite &&
            (e.fs0 (finalOutputPath e.output e.nspace e.pname ver none)).isSome)
            = true := by
          rw [hover, hsome]
          rfl
        exact absurd hc hov2
      · intro hover hsome
        have hc : (!e.overwrite &&
            (e.fs0 (finalOutputPath e.output e.nspace e.pname ver none)).isSome)
            = true := by
          rw [hover, hsome]
          rfl
        exact absurd hc hov2
      · intro _
        refine ⟨hres, ?_⟩
        rw [htrace, applyEvents_append, fetch_prefix_fs, applyEvents_append,
          detectWarn_apply, apply_publish_rename]
        exact setPath_same _ _ _

theorem stringDataEq {a b : String} (h : a.data = b.data) : a = b := by
  cases a with
  | mk la =>
    cases b with
    | mk lb => exact congrArg String.mk h

theorem data_append (a b : String) : (a ++ b).data = a.data ++ b.data := rfl

/-- **C6.** For every successful run: when the output path ends with a
path separator, the final path is the output directory joined with the
synthesized filename `{namespace}_{name}@{version}.{ext}` where `ext`
is `wit` exactly when decoded text was produced and `wasm` otherwise;
when it does not, the output path is used verbatim. -/
theorem final_path_formula (e : GetEnv) (ver : SemVersion) (w : Option String)
    (p : String)
    (h1 : resolveVersion e.specVersion e.listVersions = .ok ver)
    (h2 : e.releaseResult = .ok ())
    (h3 : (!endsWithSlash e.output && parentMissing e.output) = false)
    (h4 : e.streamOpen = .ok ())
    (h5 : e.streamTail = none)
    (h6 : decodePhase (effectiveFormat e.fmt (pathExtension e.output))
      (e.decode e.chunks.flatten) = .ok w)
    (hres : (runGet e).result = .ok p) :
    (endsWithSlash e.output = true →
      p = e.output ++ (e.nspace ++ "_" ++ e.pname ++ "@" ++ versionString ver
        ++ "." ++ (if w.isSome then "wit" else "wasm"))) ∧
    (endsWithSlash e.output = false → p = e.output) := by
  have hrun := runGet_reached e ver h1 h2 h3 h4 h5
  by_cases hov : (!e.overwrite &&
      (e.fs0 (finalOutputPath e.output e.nspace e.pname ver w)).isSome) = true
  · have haf2 : (afterFetch e ver).result
        = .error (.outputExists (finalOutputPath e.output e.nspace e.pname ver w)) := by
      rw [afterFetch_decode_ok e ver w h6, if_pos hov]
    rw [hrun] at hres
    have hres2 : (afterFetch e ver).result = .ok p := hres
    rw [haf2] at hres2
    exact absurd hres2 (by simp)
  · have hafr : (afterFetch e ver).result
        = .ok (finalOutputPath e.output e.nspace e.pname ver w) := by
      rw [afterFetch_decode_ok e ver w h6, if_neg hov]
      cases w <;> rfl
    rw [hrun] at hres
    have hres2 : (afterFetch e ver).result = .ok p := hres
    rw [hafr] at hres2
    have hp : p = finalOutputPath e.output e.nspace e.pname ver w := by
      injection hres2 with h0
      exact h0.symm
    constructor
    · intro hs
      have : p = e.output ++ synthFileName e.nspace e.pname ver w := by
        rw [hp, finalOutputPath, if_pos hs]
      exact this
    · intro hs
      rw [hp, finalOutputPath, if_neg (by simp [hs])]

/-- A concrete directory-mode environment whose content decodes to a
WIT package with printed text `"t"`. -/
def envDirWit : GetEnv :=
  ⟨"wasi", "cli", some ⟨0, 2, 0, []⟩, .ok [], .ok (), .ok (),
    [[1]], none, fun _ => .witPackage (.ok "t"), "out/", .auto, true,
    fun _ => none⟩

/-- Witness for C6: directory mode with namespace `wasi`, name `cli`,
version `0.2.0` and decoded text synthesizes
`out/wasi_cli@0.2.0.wit`. -/
theorem final_path_formula_witness :
    "out/wasi_cli@0.2.0.wit"
      = "out/" ++ ("wasi" ++ "_" ++ "cli" ++ "@" ++ versionString ⟨0, 2, 0, []⟩
        ++ "." ++ (if (some "t" : Option String).isSome then "wit" else "wasm")) := by
  have h := final_path_formula envDirWit ⟨0, 2, 0, []⟩ (some "t")
    "out/wasi_cli@0.2.0.wit" rfl rfl (by decide) rfl rfl (by decide) (by decide)
  exact h.1 (by decide)

/-- **C2.** For every run in which content decoding is attempted
(effective format not `Wasm`) and fails: the failure is fatal — the run
fails with exactly that decode error — if and only if the effective
format is `Wit`; when the effective format is still `Auto` the failure
is non-fatal: the detection-failure warning is reported, the run does
not fail with the decode error, and whatever it publishes is the raw
binary (the byte-for-byte chunk concatenation). -/
theorem decode_error_fatal_iff_wit (e : GetEnv) (ver : SemVersion) (c : Nat)
    (h1 : resolveVersion e.specVersion e.listVersions = .ok ver)
    (h2 : e.releaseResult = .ok ())
    (h3 : (!endsWithSlash e.output && parentMissing e.output) = false)
    (h4 : e.streamOpen = .ok ())
    (h5 : e.streamTail = none)
    (hfmt : effectiveFormat e.fmt (pathExtension e.output) ≠ .wasm)
    (hdec : e.decode e.chunks.flatten = .failed c) :
    ((runGet e).result = .error (.decodeFailed c)
      ↔ effectiveFormat e.fmt (pathExtension e.output) = .wit) ∧
    (effectiveFormat e.fmt (pathExtension e.output) = .auto →
      Event.warnDecode c ∈ (runGet e).trace ∧
      (runGet e).result ≠ .error (.decodeFailed c) ∧
      (∀ p, (runGet e).result = .ok p →
        (applyEvents (initFS e) (runGet e).trace).final p
          = some e.chunks.flatten)) := by
  have hrun := runGet_reached e ver h1 h2 h3 h4 h5
  cases hf : effectiveFormat e.fmt (pathExtension e.output) with
  | wasm => exact absurd hf hfmt
  | wit =>
    have hd : decodePhase (effectiveFormat e.fmt (pathExtension e.output))
        (e.decode e.chunks.flatten) = .error (.decodeFailed c) := by
      rw [hf, hdec]
      rfl
    have haf2 := afterFetch_decode_err e ver _ hd
    have hres : (runGet e).result = .error (.decodeFailed c) := by
      rw [hrun, haf2]
    exact ⟨⟨fun _ => rfl, fun _ => hres⟩, fun h0 => absurd h0 (by simp)⟩
  | auto =>
    have hd : decodePhase (effectiveFormat e.fmt (pathExtension e.output))
        (e.decode e.chunks.flatten) = .ok none := by
      rw [hf, hdec]
      rfl
    have hwarn : detectWarn e = [Event.warnDecode c] := by
      unfold detectWarn
      rw [hf, hdec]
      rfl
    by_cases hov : (!e.overwrite &&
        (e.fs0 (finalOutputPath e.output e.nspace e.pname ver none)).isSome) = true
    · have haf2 : afterFetch e ver =
          ⟨detectWarn e ++ [Event.tempRemove],
            .error (.outputExists (finalOutputPath e.output e.nspace e.pname ver none))⟩ := by
        rw [afterFetch_decode_ok e ver none hd, if_pos hov]
      have hres : (runGet e).result
          = .error (.outputExists (finalOutputPath e.output e.nspace e.pname ver none)) := by
        rw [hrun, haf2]
      refine ⟨⟨?_, ?_⟩, ?_⟩
      · intro h0
        rw [hres] at h0
        exact absurd h0 (by simp)
      · intro h0
        exact absurd h0 (by simp)
      · intro _
        refine ⟨?_, ?_, ?_⟩
        · rw [hrun, haf2]
          simp [hwarn]
        · rw [hres]
          simp
        · intro p hp0
          rw [hres] at hp0
          exact absurd hp0 (by simp)
    · have haf2 : afterFetch e ver =
          ⟨detectWarn e ++
            [Event.renameTemp (finalOutputPath e.output e.nspace e.pname ver none)],
            .ok (finalOutputPath e.output e.nspace e.pname ver none)⟩ := by
        rw [afterFetch_decode_ok e ver none hd, if_neg hov]
      have hres : (runGet e).result
          = .ok (finalOutputPath e.output e.nspace e.pname ver none) := by
        rw [hrun, haf2]
      have htrace : (runGet e).trace
          = (Event.tempCreate :: e.chunks.map Event.tempWrite)
            ++ (detectWarn e ++
              [Event.renameTemp (finalOutputPath e.output e.nspace e.pname ver none)]) := by
        rw [hrun, haf2]
      refine ⟨⟨?_, ?_⟩, ?_⟩
      · intro h0
        rw [hres] at h0
        exact absurd h0 (by simp)
      · intro h0
        exact absurd h0 (by simp)
      · intro _
        refine ⟨?_, ?_, ?_⟩
        · rw [htrace]
          simp [hwarn]
        · rw [hres]
          simp
        · intro p hp0
          rw [hres] at hp0
          have hp : p = finalOutputPath e.output e.nspace e.pname ver none := by
            injection hp0 with h0
            exact h0.symm
          subst hp
          rw [htrace, applyEvents_append, fetch_prefix_fs, applyEvents_append,
            detectWarn_apply, apply_publish_rename]
          exact setPath_same _ _ _

/-- A concrete `Auto`-mode environment whose decoder fails. -/
def envAutoFail : GetEnv :=
  ⟨"ns", "pkg", some ⟨1, 0, 0, []⟩, .ok [], .ok (), .ok (),
    [[1, 2]], none, fun _ => .failed 3, "out", .auto, true, fun _ => none⟩

/-- A concrete `Wit`-mode environment whose decoder fails. -/
def envWitFail : GetEnv :=
  ⟨"ns", "pkg", some ⟨1, 0, 0, []⟩, .ok [], .ok (), .ok (),
    [[1, 2]], none, fun _ => .failed 3, "out", .wit, true, fun _ => none⟩

/-- Witness for C2: with `--format wit` a decode failure is fatal; in
`Auto` mode it degrades to a warning and the raw binary is published. -/
theorem decode_error_fatal_iff_wit_witness :
    (runGet envWitFail).result = .error (.decodeFailed 3) ∧
    Event.warnDecode 3 ∈ (runGet envAutoFail).trace ∧
    (runGet envAutoFail).result ≠ .error (.decodeFailed 3) := by
  have hW := decode_error_fatal_iff_wit envWitFail ⟨1, 0, 0, []⟩ 3
    rfl rfl (by decide) rfl rfl (by decide) rfl
  have hA := decode_error_fatal_iff_wit envAutoFail ⟨1, 0, 0, []⟩ 3
    rfl rfl (by decide) rfl rfl (by decide) rfl
  exact ⟨hW.1.mpr (by decide), (hA.2 (by decide)).1, (hA.2 (by decide)).2.1⟩

/-- **C3.** For every run with effective format `Wit` whose decoder
succeeds but yields an artifact kind other than a WIT package: the run
does not fail (given the existence check passes) and produces no text —
the raw binary is published — and in directory mode the synthesized
filename gets the `.wasm` extension despite the `Wit` request. -/
theorem wit_format_other_artifact (e : GetEnv) (ver : SemVersion)
    (h1 : resolveVersion e.specVersion e.listVersions = .ok ver)
    (h2 : e.releaseResult = .ok ())
    (h3 : (!endsWithSlash e.output && parentMissing e.output) = false)
    (h4 : e.streamOpen = .ok ())
    (h5 : e.streamTail = none)
    (hfmt : effectiveFormat e.fmt (pathExtension e.output) = .wit)
    (hdec : e.decode e.chunks.flatten = .otherArtifact)
    (hok : (!e.overwrite &&
      (e.fs0 (finalOutputPath e.output e.nspace e.pname ver none)).isSome) = false) :
    (runGet e).result = .ok (finalOutputPath e.output e.nspace e.pname ver none) ∧
    (applyEvents (initFS e) (runGet e).trace).final
        (finalOutputPath e.output e.nspace e.pname ver none)
      = some e.chunks.flatten ∧
    (endsWithSlash e.output = true →
      ∃ base, finalOutputPath e.output e.nspace e.pname ver none
        = base ++ ".wasm") := by
  have hrun := runGet_reached e ver h1 h2 h3 h4 h5
  have hd : decodePhase (effectiveFormat e.fmt (pathExtension e.output))
      (e.decode e.chunks.flatten) = .ok none := by
    rw [hfmt, hdec]
    rfl
  have hov2 : ¬(!e.overwrite &&
      (e.fs0 (finalOutputPath e.output e.nspace e.pname ver none)).isSome) = true := by
    intro hcontra
    rw [hcontra] at hok
    exact absurd hok (by simp)
  have haf2 : afterFetch e ver =
      ⟨detectWarn e ++
        [Event.renameTemp (finalOutputPath e.output e.nspace e.pname ver none)],
        .ok (finalOutputPath e.output e.nspace e.pname ver none)⟩ := by
    rw [afterFetch_decode_ok e ver none hd, if_neg hov2]
  have hres : (runGet e).result
      = .ok (finalOutputPath e.output e.nspace e.pname ver none) := by
    rw [hrun, haf2]
  have htrace : (runGet e).trace
      = (Event.tempCreate :: e.chunks.map Event.tempWrite)
        ++ (detectWarn e ++
          [Event.renameTemp (finalOutputPath e.output e.nspace e.pname ver none)]) := by
    rw [hrun, haf2]
  refine ⟨hres, ?_, ?_⟩
  · rw [htrace, applyEvents_append, fetch_prefix_fs, applyEvents_append,
      detectWarn_apply, apply_publish_rename]
    exact setPath_same _ _ _
  · intro hs
    refine ⟨e.output ++ (e.nspace ++ "_" ++ e.pname ++ "@" ++ versionString ver), ?_⟩
    have hfin : finalOutputPath e.output e.nspace e.pname ver none
        = e.output ++ synthFileName e.nspace e.pname ver none := by
      rw [finalOutputPath, if_pos hs]
    rw [hfin]
    apply stringDataEq
    have hws : (".wasm" : String).data
        = ("." : String).data ++ ("wasm" : String).data := by decide
    simp only [synthFileName, Option.isSome_none, Bool.false_eq_true, if_false,
      data_append, hws]
    simp [List.append_assoc]

/-- A concrete environment with `--format wit` whose decoder yields a
non-WIT artifact, in directory mode. -/
def envWitOther : GetEnv :=
  ⟨"ns", "pkg", some ⟨1, 0, 0, []⟩, .ok [], .ok (), .ok (),
    [[5, 6]], none, fun _ => .otherArtifact, "out/", .wit, true,
    fun _ => none⟩

/-- Witness for C3: `--format wit` on a non-WIT artifact publishes the
raw binary under a `.wasm`-suffixed synthesized name. -/
theorem wit_format_other_artifact_witness :
    (runGet envWitOther).result = .ok "out/ns_pkg@1.0.0.wasm" ∧
    (applyEvents (initFS envWitOther) (runGet envWitOther).trace).final
      "out/ns_pkg@1.0.0.wasm" = some [5, 6] ∧
    (∃ base, finalOutputPath "out/" "ns" "pkg" ⟨1, 0, 0, []⟩ none
      = base ++ ".wasm") := by
  have h := wit_format_other_artifact envWitOther ⟨1, 0, 0, []⟩
    rfl rfl (by decide) rfl rfl (by decide) rfl (by decide)
  exact ⟨h.1, h.2.1, h.2.2 (by decide)⟩

/-- A concrete environment whose final output path already exists and
whose overwrite flag is unset. -/
def envExisting : GetEnv :=
  ⟨"ns", "pkg", some ⟨1, 0, 0, []⟩, .ok [], .ok (), .ok (),
    [[1, 2]], none, fun _ => .otherArtifact, "out.wasm", .wasm, false,
    fun p => if p = "out.wasm" then some [9] else none⟩

/-- The same environment with the overwrite flag set. -/
def envOverwrite : GetEnv :=
  ⟨"ns", "pkg", some ⟨1, 0, 0, []⟩, .ok [], .ok (), .ok (),
    [[1, 2]], none, fun _ => .otherArtifact, "out.wasm", .wasm, true,
    fun p => if p = "out.wasm" then some [9] else none⟩

/-- Witness for C7: without overwrite an existing output fails with
`OutputExists`; with overwrite the run succeeds and replaces the
content. -/
theorem output_exists_check_witness :
    (runGet envExisting).result = .error (.outputExists "out.wasm") ∧
    (runGet envOverwrite).result = .ok "out.wasm" ∧
    (applyEvents (initFS envOverwrite) (runGet envOverwrite).trace).final
      "out.wasm" = some [1, 2] := by
  have hA := output_exists_check envExisting ⟨1, 0, 0, []⟩ none
    rfl rfl (by decide) rfl rfl (by decide)
  have hB := output_exists_check envOverwrite ⟨1, 0, 0, []⟩ none
    rfl rfl (by decide) rfl rfl (by decide)
  exact ⟨hA.1.mpr ⟨by decide, rfl⟩, (hB.2.2 rfl).1, (hB.2.2 rfl).2⟩

theorem take_final_invariant (evs : List Event)
    (h : ∀ ev ∈ evs, ev.touchesFinal = false) (k : Nat) (fs : FSState) :
    (applyEvents fs (evs.take k)).final = fs.final :=
  applyEvents_final_invariant _ fs (fun ev hev => h ev (List.take_subset k evs hev))

/-- A concrete environment whose content decodes to a WIT package with
printed text `"w"`, published by a direct write to the final path. -/
def envWitText : GetEnv :=
  ⟨"ns", "pkg", some ⟨1, 0, 0, []⟩, .ok [], .ok (), .ok (),
    [[0, 97]], none, fun _ => .witPackage (.ok "w"), "out.txt", .auto, true,
    fun _ => none⟩

/-- **C1, counterexample.** On `envWitText` the run succeeds and the
complete artifact is the decoded text; yet after the first three events
of the very same run the final output path holds an empty file — a
state that is neither the unchanged original (`none`) nor the complete
artifact — because `std::fs::write` first creates/truncates the file at
the final path. So the final-path write is not atomic with respect to
partial content for the decoded-text branch. -/
theorem get_write_not_atomic_counterexample :
    (runGet envWitText).result = .ok "out.txt" ∧
    (applyEvents (initFS envWitText) (runGet envWitText).trace).final "out.txt"
      = some (strBytes "w") ∧
    envWitText.fs0 "out.txt" = none ∧
    (applyEvents (initFS envWitText) ((runGet envWitText).trace.take 3)).final
      "out.txt" = some [] ∧
    (some ([] : List Nat) ≠ none) ∧ some ([] : List Nat) ≠ some (strBytes "w") :=
  ⟨by decide, by decide, rfl, by decide, by decide, by decide⟩

/-- **C1, amended.** For every run that publishes no decoded text (its
trace contains no fresh-write event at a final path — the raw-binary
rename branch and every failing branch), the final artifact write is
atomic with respect to partial content: after every prefix of the run's
event trace, every final path either holds its original content or —
only for the path the run successfully committed — the complete raw
artifact. When decoded text is produced, the text is written directly
to the final path and a mid-run state can expose partial content there
(see the counterexample). -/
theorem raw_publish_atomic (e : GetEnv)
    (hno : ∀ ev ∈ (runGet e).trace, ev.isCreateFinal = false)
    (k : Nat) (p : String) :
    (applyEvents (initFS e) ((runGet e).trace.take k)).final p = e.fs0 p ∨
    ((runGet e).result = .ok p ∧
      (applyEvents (initFS e) ((runGet e).trace.take k)).final p
        = some e.chunks.flatten) := by
  cases hr : resolveVersion e.specVersion e.listVersions with
  | error er =>
    left
    rw [runGet_resolve_err e er hr]
    simp [applyEvents, initFS]
  | ok ver =>
    cases hrel : e.releaseResult with
    | error c2 =>
      left
      rw [runGet_release_err e ver c2 hr hrel]
      simp [applyEvents, initFS]
    | ok u =>
      cases u
      by_cases hpar : (!endsWithSlash e.output && parentMissing e.output) = true
      · left
        rw [runGet_parent_err e ver hr hrel hpar]
        simp [applyEvents, initFS]
      · have hp2 : (!endsWithSlash e.output && parentMissing e.output) = false := by
          revert hpar
          cases !endsWithSlash e.output && parentMissing e.output <;> simp
        cases hop : e.streamOpen with
        | error c3 =>
          left
          have htrace : (runGet e).trace = [Event.tempCreate, Event.tempRemove] := by
            rw [runGet_open_err e ver c3 hr hrel hp2 hop]
          rw [htrace, take_final_invariant [Event.tempCreate, Event.tempRemove]
            (by decide) k (initFS e)]
          rfl
        | ok u2 =>
          cases u2
          cases hst : e.streamTail with
          | some c =>
            left
            have hnf : ∀ ev ∈ (Event.tempCreate :: e.chunks.map Event.tempWrite)
                ++ [Event.tempRemove], ev.touchesFinal = false := by
              intro ev hev
              rcases List.mem_append.mp hev with h0 | h0
              · rcases List.mem_cons.mp h0 with h1 | h1
                · rw [h1]; rfl
                · exact tempWrite_touchesFinal _ _ h1
              · simp only [List.mem_singleton] at h0
                rw [h0]; rfl
            have htrace : (runGet e).trace
                = (Event.tempCreate :: e.chunks.map Event.tempWrite)
                  ++ [Event.tempRemove] := by
              rw [runGet_stream_err e ver c hr hrel hp2 hop hst]
            rw [htrace, take_final_invariant _ hnf k (initFS e)]
            rfl
          | none =>
            have hrun := runGet_reached e ver hr hrel hp2 hop hst
            cases hd : decodePhase (effectiveFormat e.fmt (pathExtension e.output))
                (e.decode e.chunks.flatten) with
            | error er =>
              left
              have haf2 := afterFetch_decode_err e ver er hd
              have htrace : (runGet e).trace
                  = (Event.tempCreate :: e.chunks.map Event.tempWrite)
                    ++ [Event.tempRemove] := by
                rw [hrun, haf2]
              have hnf : ∀ ev ∈ (Event.tempCreate :: e.chunks.map Event.tempWrite)
                  ++ [Event.tempRemove], ev.touchesFinal = false := by
                intro ev hev
                rcases List.mem_append.mp hev with h0 | h0
                · rcases List.mem_cons.mp h0 with h1 | h1
                  · rw [h1]; rfl
                  · exact tempWrite_touchesFinal _ _ h1
                · simp only [List.mem_singleton] at h0
                  rw [h0]; rfl
              rw [htrace, take_final_invariant _ hnf k (initFS e)]
              rfl
            | ok wit =>
              by_cases hov : (!e.overwrite &&
                  (e.fs0 (finalOutputPath e.output e.nspace e.pname ver wit)).isSome)
                  = true
              · left
                have haf2 : afterFetch e ver =
                    ⟨detectWarn e ++ [Event.tempRemove],
                      .error (.outputExists
                        (finalOutputPath e.output e.nspace e.pname ver wit))⟩ := by
                  rw [afterFetch_decode_ok e ver wit hd, if_pos hov]
                have htrace : (runGet e).trace
                    = (Event.tempCreate :: e.chunks.map Event.tempWrite)
                      ++ (detectWarn e ++ [Event.tempRemove]) := by
                  rw [hrun, haf2]
                have hnf : ∀ ev ∈ (Event.tempCreate :: e.chunks.map Event.tempWrite)
                    ++ (detectWarn e ++ [Event.tempRemove]),
                    ev.touchesFinal = false := by
                  intro ev hev
                  rcases List.mem_append.mp hev with h0 | h0
                  · rcases List.mem_cons.mp h0 with h1 | h1
                    · rw [h1]; rfl
                    · exact tempWrite_touchesFinal _ _ h1
                  · rcases List.mem_append.mp h0 with h1 | h1
                    · obtain ⟨c0, hc0⟩ := detectWarn_mem e ev h1
                      rw [hc0]; rfl
                    · simp only [List.mem_singleton] at h1
                      rw [h1]; rfl
                rw [htrace, take_final_invariant _ hnf k (initFS e)]
                rfl
              · cases wit with
                | some t =>
                  have haf2 : afterFetch e ver =
                      ⟨detectWarn e ++
                        [Event.createFinal
                            (finalOutputPath e.output e.nspace e.pname ver (some t)),
                          Event.appendFinal
                            (finalOutputPath e.output e.nspace e.pname ver (some t))
                            (strBytes t),
                          Event.tempRemove],
                        .ok (finalOutputPath e.output e.nspace e.pname ver (some t))⟩ := by
                    rw [afterFetch_decode_ok e ver (some t) hd, if_neg hov]
                  have hmem : Event.createFinal
                      (finalOutputPath e.output e.nspace e.pname ver (some t))
                      ∈ (runGet e).trace := by
                    rw [hrun, haf2]
                    simp
                  have hbad := hno _ hmem
                  simp [Event.isCreateFinal] at hbad
                | none =>
                  have haf2 : afterFetch e ver =
                      ⟨detectWarn e ++
                        [Event.renameTemp
                          (finalOutputPath e.output e.nspace e.pname ver none)],
                        .ok (finalOutputPath e.output e.nspace e.pname ver none)⟩ := by
                    rw [afterFetch_decode_ok e ver none hd, if_neg hov]
                  have hres : (runGet e).result
                      = .ok (finalOutputPath e.output e.nspace e.pname ver none) := by
                    rw [hrun, haf2]
                  have htrace : (runGet e).trace
                      = ((Event.tempCreate :: e.chunks.map Event.tempWrite)
                          ++ detectWarn e)
                        ++ [Event.renameTemp
                          (finalOutputPath e.output e.nspace e.pname ver none)] := by
                    rw [hrun, haf2]
                    exact (List.append_assoc _ _ _).symm
                  have hAnf : ∀ ev ∈ (Event.tempCreate :: e.chunks.map Event.tempWrite)
                      ++ detectWarn e, ev.touchesFinal = false := by
                    intro ev hev
                    rcases List.mem_append.mp hev with h0 | h0
                    · rcases List.mem_cons.mp h0 with h1 | h1
                      · rw [h1]; rfl
                      · exact tempWrite_touchesFinal _ _ h1
                    · obtain ⟨c0, hc0⟩ := detectWarn_mem e ev h0
                      rw [hc0]; rfl
                  have hA_fs : applyEvents (initFS e)
                      ((Event.tempCreate :: e.chunks.map Event.tempWrite)
                        ++ detectWarn e)
                      = ⟨e.fs0, some e.chunks.flatten⟩ := by
                    rw [applyEvents_append, fetch_prefix_fs, detectWarn_apply]
                  by_cases hk : k ≤ ((Event.tempCreate :: e.chunks.map Event.tempWrite)
                      ++ detectWarn e).length
                  · left
                    have htake : (runGet e).trace.take k
                        = ((Event.tempCreate :: e.chunks.map Event.tempWrite)
                            ++ detectWarn e).take k := by
                      rw [htrace, List.take_append_eq_append_take,
                        Nat.sub_eq_zero_of_le hk]
                      simp
                    rw [htake, take_final_invariant _ hAnf k (initFS e)]
                    rfl
                  · have hlen : ((((Event.tempCreate :: e.chunks.map Event.tempWrite)
                        ++ detectWarn e))
                        ++ [Event.renameTemp
                          (finalOutputPath e.output e.nspace e.pname ver none)]).length
                        ≤ k := by
                      rw [List.length_append]
                      simp only [List.length_singleton]
                      omega
                    have htake : (runGet e).trace.take k
                        = ((Event.tempCreate :: e.chunks.map Event.tempWrite)
                            ++ detectWarn e)
                          ++ [Event.renameTemp
                            (finalOutputPath e.output e.nspace e.pname ver none)] := by
                      rw [htrace]
                      exact List.take_of_length_le hlen
                    by_cases hpq : p = finalOutputPath e.output e.nspace e.pname ver none
                    · right
                      subst hpq
                      refine ⟨hres, ?_⟩
                      rw [htake, applyEvents_append, hA_fs, apply_publish_rename]
                      exact setPath_same _ _ _
                    · left
                      rw [htake, applyEvents_append, hA_fs, apply_publish_rename]
                      exact setPath_other _ _ _ _ hpq

/-- Witness for the amended C1: a raw-binary run (`envStreamOk`), a
prefix of its trace, and a path, at which the disjunction holds. -/
theorem raw_publish_atomic_witness :
    (applyEvents (initFS envStreamOk) ((runGet envStreamOk).trace.take 2)).final
      "out.wasm" = envStreamOk.fs0 "out.wasm" ∨
    ((runGet envStreamOk).result = .ok "out.wasm" ∧
      (applyEvents (initFS envStreamOk) ((runGet envStreamOk).trace.take 2)).final
        "out.wasm" = some envStreamOk.chunks.flatten) :=
  raw_publish_atomic envStreamOk (by decide) 2 "out.wasm"
